import Mathlib

/-!
Verification of `neo4j/bench.py`, a command-line latency benchmarking
script: percentile interpolation, worker/coordinator sample recording and
aggregation, and command-line argument handling.

Numeric model: Python floats are modelled by `ℚ`.  Every arithmetic
operation the script performs on latency values (`+`, `*`, `-`,
`floor`, `ceil`) is exact on the rational inputs considered here, so no
floating-point rounding is involved in any of the verified properties.
-/

namespace Bench

/-- Python sequence indexing `values[i]` with an `int` index: a negative
index counts from the end (`values[-1]` is the last element); an index
out of range raises `IndexError`, modelled as `none`. -/
def pyGet (values : List ℚ) (i : ℤ) : Option ℚ :=
  if 0 ≤ i then values.get? i.toNat
  else if 0 ≤ (values.length : ℤ) + i then values.get? ((values.length : ℤ) + i).toNat
  else none

/-- Python `int(x)` on a float: truncation toward zero. -/
def pyInt (q : ℚ) : ℤ :=
  if 0 ≤ q then ⌊q⌋ else ⌈q⌉

/-- The interpolation rank used by `percentile`: `index = (len(values) - 1) * nth`
(bench.py line 64). -/
def pIndex (values : List ℚ) (nth : ℚ) : ℚ :=
  ((values.length : ℚ) - 1) * nth

/-- `percentile(values, nth)` from bench.py lines 63-70:
`index = (len(values) - 1) * nth`, `lo = floor(index)`, `hi = ceil(index)`;
if `lo == hi` return `values[int(index)]`, else
`values[lo] * (hi - index) + values[hi] * (index - lo)`.
A failing index access (IndexError) makes the result `none`. -/
def percentile (values : List ℚ) (nth : ℚ) : Option ℚ :=
  if ⌊pIndex values nth⌋ = ⌈pIndex values nth⌉ then
    pyGet values (pyInt (pIndex values nth))
  else
    (pyGet values ⌊pIndex values nth⌋).bind fun a =>
      (pyGet values ⌈pIndex values nth⌉).map fun b =>
        a * ((⌈pIndex values nth⌉ : ℚ) - pIndex values nth) +
          b * (pIndex values nth - (⌊pIndex values nth⌋ : ℚ))

/-- The Percentile Estimator exactly as the specification words it
(spec §4.1): `idx = p·(N-1)`, `lo = floor(idx)`, `hi = ceil(idx)`;
if `lo == hi` return `values[idx]`, otherwise
`values[lo]·(hi-idx) + values[hi]·(idx-lo)`.  The spec assumes every
index access is in bounds, so plain total indexing (`getD _ 0`) is used;
this definition is to be compared against `percentile` above. -/
def estimate (values : List ℚ) (p : ℚ) : ℚ :=
  if ⌊p * ((values.length : ℚ) - 1)⌋ = ⌈p * ((values.length : ℚ) - 1)⌉ then
    values.getD (⌊p * ((values.length : ℚ) - 1)⌋).toNat 0
  else
    values.getD (⌊p * ((values.length : ℚ) - 1)⌋).toNat 0 *
        ((⌈p * ((values.length : ℚ) - 1)⌉ : ℚ) - p * ((values.length : ℚ) - 1)) +
      values.getD (⌈p * ((values.length : ℚ) - 1)⌉).toNat 0 *
        (p * ((values.length : ℚ) - 1) - (⌊p * ((values.length : ℚ) - 1)⌋ : ℚ))

lemma get?_eq_some_getD : ∀ (l : List ℚ) (n : ℕ), n < l.length →
    l.get? n = some (l.getD n 0)
  | _ :: _, 0, _ => rfl
  | _ :: l, n + 1, h => get?_eq_some_getD l n (Nat.lt_of_succ_lt_succ h)

lemma pyGet_of_nonneg (values : List ℚ) (i : ℤ) (h : 0 ≤ i) :
    pyGet values i = values.get? i.toNat := by
  simp [pyGet, h]

lemma pIndex_nonneg (values : List ℚ) (p : ℚ) (hne : values ≠ [])
    (h0 : 0 ≤ p) : 0 ≤ pIndex values p := by
  have hN : 1 ≤ values.length := List.length_pos.mpr hne
  have : (1 : ℚ) ≤ (values.length : ℚ) := by exact_mod_cast hN
  exact mul_nonneg (by linarith) h0

lemma pIndex_le (values : List ℚ) (p : ℚ) (hne : values ≠ [])
    (h0 : 0 ≤ p) (h1 : p ≤ 1) : pIndex values p ≤ (values.length : ℚ) - 1 := by
  have hN : 1 ≤ values.length := List.length_pos.mpr hne
  have hN' : (1 : ℚ) ≤ (values.length : ℚ) := by exact_mod_cast hN
  calc pIndex values p ≤ ((values.length : ℚ) - 1) * 1 :=
        mul_le_mul_of_nonneg_left h1 (by linarith)
    _ = (values.length : ℚ) - 1 := by ring

lemma floor_pIndex_nonneg (values : List ℚ) (p : ℚ) (hne : values ≠ [])
    (h0 : 0 ≤ p) : 0 ≤ ⌊pIndex values p⌋ :=
  Int.floor_nonneg.mpr (pIndex_nonneg values p hne h0)

lemma ceil_pIndex_le (values : List ℚ) (p : ℚ) (hne : values ≠ [])
    (h0 : 0 ≤ p) (h1 : p ≤ 1) :
    ⌈pIndex values p⌉ ≤ (values.length : ℤ) - 1 := by
  apply Int.ceil_le.mpr
  have := pIndex_le values p hne h0 h1
  push_cast
  linarith

lemma floor_toNat_lt (values : List ℚ) (p : ℚ) (hne : values ≠ [])
    (h0 : 0 ≤ p) (h1 : p ≤ 1) :
    (⌊pIndex values p⌋).toNat < values.length := by
  have hfc : ⌊pIndex values p⌋ ≤ ⌈pIndex values p⌉ := Int.floor_le_ceil _
  have hc := ceil_pIndex_le values p hne h0 h1
  have hN : 1 ≤ values.length := List.length_pos.mpr hne
  omega

lemma ceil_toNat_lt (values : List ℚ) (p : ℚ) (hne : values ≠ [])
    (h0 : 0 ≤ p) (h1 : p ≤ 1) :
    (⌈pIndex values p⌉).toNat < values.length := by
  have hc := ceil_pIndex_le values p hne h0 h1
  have hN : 1 ≤ values.length := List.length_pos.mpr hne
  omega

/-- Core refinement lemma: on a non-empty sequence and a fraction in
`[0,1]`, the code's `percentile` succeeds and returns exactly the value
described by the spec's Percentile Estimator. -/
lemma percentile_eq_estimate (values : List ℚ) (p : ℚ) (hne : values ≠ [])
    (h0 : 0 ≤ p) (h1 : p ≤ 1) :
    percentile values p = some (estimate values p) := by
  have hidx : p * ((values.length : ℚ) - 1) = pIndex values p := by
    unfold pIndex; ring
  have hnn := pIndex_nonneg values p hne h0
  have hflo := floor_pIndex_nonneg values p hne h0
  have hlo := floor_toNat_lt values p hne h0 h1
  have hhi := ceil_toNat_lt values p hne h0 h1
  have hceilnn : 0 ≤ ⌈pIndex values p⌉ := le_trans hflo (Int.floor_le_ceil _)
  unfold percentile estimate
  rw [hidx]
  by_cases hcase : ⌊pIndex values p⌋ = ⌈pIndex values p⌉
  · rw [if_pos hcase, if_pos hcase]
    have hpi : pyInt (pIndex values p) = ⌊pIndex values p⌋ := by
      unfold pyInt; rw [if_pos hnn]
    rw [hpi, pyGet_of_nonneg values _ hflo, get?_eq_some_getD values _ hlo]
  · rw [if_neg hcase, if_neg hcase]
    rw [pyGet_of_nonneg values _ hflo, pyGet_of_nonneg values _ hceilnn,
      get?_eq_some_getD values _ hlo, get?_eq_some_getD values _ hhi]
    rfl

lemma percentile_example : percentile [10, 20, 30, 40] (1/2 : ℚ) = some 25 := by
  have hidx : pIndex [10, 20, 30, 40] (1/2 : ℚ) = 3/2 := by
    simp [pIndex]; norm_num
  have hf : ⌊(3/2 : ℚ)⌋ = 1 := by rw [Int.floor_eq_iff] <;> norm_num
  have hc : ⌈(3/2 : ℚ)⌉ = 2 := by rw [Int.ceil_eq_iff] <;> norm_num
  unfold percentile
  rw [hidx, hf, hc]
  norm_num [pyGet]
  norm_num [Int.toNat]

lemma percentile_at_zero (values : List ℚ) (hne : values ≠ []) :
    percentile values 0 = some (values.getD 0 0) := by
  have hlen : 0 < values.length := List.length_pos.mpr hne
  have hidx : pIndex values 0 = 0 := by simp [pIndex]
  unfold percentile
  rw [hidx]
  rw [if_pos (by simp)]
  have hpi : pyInt 0 = 0 := by simp [pyInt]
  rw [hpi, pyGet_of_nonneg values 0 le_rfl]
  simpa using get?_eq_some_getD values 0 hlen

lemma percentile_at_one (values : List ℚ) (hne : values ≠ []) :
    percentile values 1 = some (values.getD (values.length - 1) 0) := by
  have hN : 1 ≤ values.length := List.length_pos.mpr hne
  have hidx : pIndex values 1 = (((values.length : ℤ) - 1 : ℤ) : ℚ) := by
    simp [pIndex]
  unfold percentile
  rw [hidx, Int.floor_intCast, Int.ceil_intCast, if_pos rfl]
  have hz : (0 : ℤ) ≤ (values.length : ℤ) - 1 := by omega
  have hpi : pyInt (((values.length : ℤ) - 1 : ℤ) : ℚ) = (values.length : ℤ) - 1 := by
    unfold pyInt
    rw [if_pos (by exact_mod_cast hz), Int.floor_intCast]
  rw [hpi, pyGet_of_nonneg values _ hz]
  have ht : ((values.length : ℤ) - 1).toNat = values.length - 1 := by omega
  rw [ht]
  exact get?_eq_some_getD values _ (by omega)

lemma percentile_singleton (x : ℚ) (q : ℚ) :
    percentile [x] q = some x := by
  have hidx : pIndex [x] q = 0 := by simp [pIndex]
  unfold percentile
  rw [hidx]
  rw [if_pos (by simp)]
  have hpi : pyInt 0 = 0 := by simp [pyInt]
  rw [hpi, pyGet_of_nonneg [x] 0 le_rfl]
  rfl

/-- C1: on every non-empty ascending-sorted sequence and every fraction
`p ∈ [0,1]`, the code's `percentile` returns exactly the spec's
interpolated estimate (`idx = p·(N-1)`, `lo = ⌊idx⌋`, `hi = ⌈idx⌉`,
`values[idx]` if `lo = hi`, else
`values[lo]·(hi-idx) + values[hi]·(idx-lo)`); in particular
`percentile([10,20,30,40], 0.5) = 25`. -/
theorem percentile_follows_spec (values : List ℚ) (p : ℚ)
    (hne : values ≠ []) (hsorted : List.Sorted (· ≤ ·) values)
    (h0 : 0 ≤ p) (h1 : p ≤ 1) :
    percentile values p = some (estimate values p) ∧
    percentile [10, 20, 30, 40] (1/2 : ℚ) = some 25 :=
  ⟨percentile_eq_estimate values p hne h0 h1, percentile_example⟩

theorem percentile_follows_spec_witness :
    percentile [10, 20, 30, 40] (1/2 : ℚ) = some (estimate [10, 20, 30, 40] (1/2 : ℚ)) ∧
    percentile [10, 20, 30, 40] (1/2 : ℚ) = some 25 :=
  percentile_follows_spec [10, 20, 30, 40] (1/2 : ℚ) (List.cons_ne_nil _ _)
    (by decide) (by norm_num) (by norm_num)

/-- C4: `percentile values 0` is the first element, `percentile values 1`
is the last element, and on a one-element list the result is that element
for every fraction. -/
theorem percentile_endpoints (values : List ℚ)
    (hne : values ≠ []) (hsorted : List.Sorted (· ≤ ·) values) :
    percentile values 0 = some (values.getD 0 0) ∧
    percentile values 1 = some (values.getD (values.length - 1) 0) ∧
    (∀ (x q : ℚ), 0 ≤ q → q ≤ 1 → percentile [x] q = some x) :=
  ⟨percentile_at_zero values hne, percentile_at_one values hne,
    fun x q _ _ => percentile_singleton x q⟩

theorem percentile_endpoints_witness :
    percentile [10, 20, 30, 40] 0 = some 10 ∧
    percentile [10, 20, 30, 40] 1 = some 40 ∧
    percentile [(7 : ℚ)] (1/3 : ℚ) = some 7 := by
  have h := percentile_endpoints [10, 20, 30, 40] (List.cons_ne_nil _ _) (by decide)
  exact ⟨by simpa using h.1, by simpa using h.2.1,
    h.2.2 7 (1/3) (by norm_num) (by norm_num)⟩

lemma percentile_nil (p : ℚ) (h0 : 0 ≤ p) (h1 : p ≤ 1) :
    percentile [] p = none := by
  have hidx : pIndex [] p = -p := by simp [pIndex]
  unfold percentile
  rw [hidx]
  rcases eq_or_lt_of_le h0 with hp0 | hp0
  · rw [← hp0]
    norm_num [pyInt, pyGet]
  · rcases eq_or_lt_of_le h1 with hp1 | hp1
    · rw [hp1]
      have hcast : (-1 : ℚ) = ((-1 : ℤ) : ℚ) := by norm_num
      rw [hcast, Int.floor_intCast, Int.ceil_intCast, if_pos rfl]
      have hpi : pyInt ((-1 : ℤ) : ℚ) = -1 := by
        unfold pyInt
        rw [if_neg (by norm_num), Int.ceil_intCast]
      rw [hpi]
      simp [pyGet]
    · have hf : ⌊(-p : ℚ)⌋ = -1 := by
        rw [Int.floor_eq_iff] <;> push_cast <;> constructor <;> linarith
      have hc : ⌈(-p : ℚ)⌉ = 0 := by
        rw [Int.ceil_eq_iff] <;> push_cast <;> constructor <;> linarith
      rw [hf, hc, if_neg (by norm_num)]
      simp [pyGet]

/-- C5: `percentile` fails (IndexError, modelled as `none`) on the empty
sequence; on a non-empty sequence with `p ∈ [0,1]` every index access
inside `percentile` is in bounds, so it returns a value (the
out-of-bounds branch is unreachable). -/
theorem percentile_empty_and_safety :
    (∀ p : ℚ, 0 ≤ p → p ≤ 1 → percentile [] p = none) ∧
    (∀ (values : List ℚ) (p : ℚ), values ≠ [] → 0 ≤ p → p ≤ 1 →
      (percentile values p).isSome = true) :=
  ⟨fun p h0 h1 => percentile_nil p h0 h1,
    fun values p hne h0 h1 => by
      rw [percentile_eq_estimate values p hne h0 h1]; rfl⟩

theorem percentile_empty_and_safety_witness :
    percentile [] (1/2 : ℚ) = none ∧
    (percentile [10, 20, 30, 40] (1/2 : ℚ)).isSome = true :=
  ⟨percentile_empty_and_safety.1 (1/2) (by norm_num) (by norm_num),
    percentile_empty_and_safety.2 [10, 20, 30, 40] (1/2) (List.cons_ne_nil _ _)
      (by norm_num) (by norm_num)⟩

/-- Interpolation at an explicit rank `t`, the common shape of
`percentile` and `estimate` on in-range inputs. -/
def interpAt (values : List ℚ) (t : ℚ) : ℚ :=
  if ⌊t⌋ = ⌈t⌉ then values.getD (⌊t⌋).toNat 0
  else
    values.getD (⌊t⌋).toNat 0 * ((⌈t⌉ : ℚ) - t) +
      values.getD (⌈t⌉).toNat 0 * (t - (⌊t⌋ : ℚ))

lemma estimate_eq_interpAt (values : List ℚ) (p : ℚ) :
    estimate values p = interpAt values (pIndex values p) := by
  unfold estimate interpAt pIndex
  rw [mul_comm p ((values.length : ℚ) - 1)]

lemma getD_mono (values : List ℚ) (hs : List.Sorted (· ≤ ·) values)
    (i j : ℕ) (hij : i ≤ j) (hj : j < values.length) :
    values.getD i 0 ≤ values.getD j 0 := by
  have hi : i < values.length := lt_of_le_of_lt hij hj
  have h1 : values.getD i 0 = values.get ⟨i, hi⟩ := by
    have h2 := get?_eq_some_getD values i hi
    rw [List.get?_eq_get hi] at h2
    exact (Option.some.inj h2).symm
  have h3 : values.getD j 0 = values.get ⟨j, hj⟩ := by
    have h4 := get?_eq_some_getD values j hj
    rw [List.get?_eq_get hj] at h4
    exact (Option.some.inj h4).symm
  rw [h1, h3]
  exact hs.rel_get_of_le (by simpa using hij)

lemma ceil_eq_floor_add_one (t : ℚ) (h : ⌊t⌋ ≠ ⌈t⌉) : ⌈t⌉ = ⌊t⌋ + 1 := by
  have h1 := Int.floor_le_ceil t
  have h2 := Int.ceil_le_floor_add_one t
  omega

lemma interpAt_lower (values : List ℚ) (hs : List.Sorted (· ≤ ·) values)
    (t : ℚ) (h0 : 0 ≤ t) (h1 : t ≤ (values.length : ℚ) - 1) :
    values.getD (⌊t⌋).toNat 0 ≤ interpAt values t := by
  unfold interpAt
  by_cases hcase : ⌊t⌋ = ⌈t⌉
  · rw [if_pos hcase]
  · rw [if_neg hcase]
    have hceil : ⌈t⌉ = ⌊t⌋ + 1 := ceil_eq_floor_add_one t hcase
    have hfl : 0 ≤ ⌊t⌋ := Int.floor_nonneg.mpr h0
    have hcl : ⌈t⌉ ≤ (values.length : ℤ) - 1 := Int.ceil_le.mpr (by push_cast; linarith)
    have hab : values.getD (⌊t⌋).toNat 0 ≤ values.getD (⌈t⌉).toNat 0 :=
      getD_mono values hs _ _ (by omega) (by omega)
    have hcoef : 0 ≤ t - (⌊t⌋ : ℚ) := sub_nonneg.mpr (Int.floor_le t)
    rw [hceil] at hab ⊢
    push_cast
    nlinarith [mul_nonneg (sub_nonneg.mpr hab) hcoef]

lemma interpAt_upper (values : List ℚ) (hs : List.Sorted (· ≤ ·) values)
    (t : ℚ) (h0 : 0 ≤ t) (h1 : t ≤ (values.length : ℚ) - 1) :
    interpAt values t ≤ values.getD (⌈t⌉).toNat 0 := by
  unfold interpAt
  by_cases hcase : ⌊t⌋ = ⌈t⌉
  · rw [if_pos hcase, hcase]
  · rw [if_neg hcase]
    have hceil : ⌈t⌉ = ⌊t⌋ + 1 := ceil_eq_floor_add_one t hcase
    have hfl : 0 ≤ ⌊t⌋ := Int.floor_nonneg.mpr h0
    have hcl : ⌈t⌉ ≤ (values.length : ℤ) - 1 := Int.ceil_le.mpr (by push_cast; linarith)
    have hab : values.getD (⌊t⌋).toNat 0 ≤ values.getD (⌈t⌉).toNat 0 :=
      getD_mono values hs _ _ (by omega) (by omega)
    have hcoef : 0 ≤ (⌈t⌉ : ℚ) - t := sub_nonneg.mpr (Int.le_ceil t)
    have hcoef2 : (⌈t⌉ : ℚ) - t ≤ 1 := by
      have := Int.floor_le t
      rw [hceil]; push_cast; linarith
    rw [hceil] at hab hcoef hcoef2 ⊢
    push_cast at hcoef hcoef2 ⊢
    nlinarith [mul_nonneg (sub_nonneg.mpr hab) hcoef]

lemma interpAt_mono (values : List ℚ) (hs : List.Sorted (· ≤ ·) values)
    (t u : ℚ) (h0 : 0 ≤ t) (htu : t ≤ u) (h1 : u ≤ (values.length : ℚ) - 1) :
    interpAt values t ≤ interpAt values u := by
  have h0u : 0 ≤ u := le_trans h0 htu
  have h1t : t ≤ (values.length : ℚ) - 1 := le_trans htu h1
  have hflt : 0 ≤ ⌊t⌋ := Int.floor_nonneg.mpr h0
  have hflu : 0 ≤ ⌊u⌋ := Int.floor_nonneg.mpr h0u
  have hclt : ⌈t⌉ ≤ (values.length : ℤ) - 1 := Int.ceil_le.mpr (by push_cast; linarith)
  have hclu : ⌈u⌉ ≤ (values.length : ℤ) - 1 := Int.ceil_le.mpr (by push_cast; linarith)
  by_cases hcc : ⌈t⌉ ≤ ⌊u⌋
  · calc interpAt values t ≤ values.getD (⌈t⌉).toNat 0 :=
          interpAt_upper values hs t h0 h1t
      _ ≤ values.getD (⌊u⌋).toNat 0 := by
          apply getD_mono values hs _ _ (by omega)
          have := Int.floor_le_ceil u
          omega
      _ ≤ interpAt values u := interpAt_lower values hs u h0u h1
  · push_neg at hcc
    have hfl_eq : ⌊t⌋ = ⌊u⌋ := by
      have hmono := Int.floor_mono htu
      have := Int.ceil_le_floor_add_one t
      omega
    by_cases hti : ⌊t⌋ = ⌈t⌉
    · unfold interpAt
      rw [if_pos hti]
      rw [hfl_eq]
      have := interpAt_lower values hs u h0u h1
      unfold interpAt at this
      exact this
    · have hui : ⌊u⌋ ≠ ⌈u⌉ := by
        intro heq
        have hu1 : (⌊u⌋ : ℚ) ≤ u := Int.floor_le u
        have hu2 : u ≤ (⌈u⌉ : ℚ) := Int.le_ceil u
        rw [← heq] at hu2
        have hueq : u = (⌊u⌋ : ℚ) := le_antisymm hu2 hu1
        have hteq : t = (⌊t⌋ : ℚ) := by
          have ht1 : (⌊t⌋ : ℚ) ≤ t := Int.floor_le t
          have ht2 : t ≤ (⌊t⌋ : ℚ) := by
            rw [hfl_eq, ← hueq]
            exact htu
          exact le_antisymm ht2 ht1
        apply hti
        rw [hteq, Int.floor_intCast, Int.ceil_intCast]
      have hct : ⌈t⌉ = ⌊t⌋ + 1 := ceil_eq_floor_add_one t hti
      have hcu : ⌈u⌉ = ⌊u⌋ + 1 := ceil_eq_floor_add_one u hui
      have hab : values.getD (⌊t⌋).toNat 0 ≤ values.getD (⌊t⌋ + 1).toNat 0 := by
        rw [← hct]
        exact getD_mono values hs _ _ (by omega) (by omega)
      unfold interpAt
      rw [hfl_eq] at hab
      rw [if_neg hti, if_neg hui, hct, hcu, hfl_eq]
      push_cast
      nlinarith [mul_nonneg (sub_nonneg.mpr hab) (sub_nonneg.mpr htu),
        sub_nonneg.mpr hab]

/-- C10: `percentile` is monotone in the fraction on a non-empty sorted
sequence, and every result lies between the first and the last element. -/
theorem percentile_monotone (values : List ℚ) (p q : ℚ)
    (hne : values ≠ []) (hs : List.Sorted (· ≤ ·) values)
    (h0 : 0 ≤ p) (hpq : p ≤ q) (h1 : q ≤ 1) :
    ∃ a b, percentile values p = some a ∧ percentile values q = some b ∧
      a ≤ b ∧ values.getD 0 0 ≤ a ∧ b ≤ values.getD (values.length - 1) 0 := by
  have hN : 1 ≤ values.length := List.length_pos.mpr hne
  have hN' : (1 : ℚ) ≤ (values.length : ℚ) := by exact_mod_cast hN
  have hp1 : p ≤ 1 := le_trans hpq h1
  have hq0 : 0 ≤ q := le_trans h0 hpq
  refine ⟨estimate values p, estimate values q,
    percentile_eq_estimate values p hne h0 hp1,
    percentile_eq_estimate values q hne hq0 h1, ?_, ?_, ?_⟩
  · rw [estimate_eq_interpAt, estimate_eq_interpAt]
    apply interpAt_mono values hs _ _ (pIndex_nonneg values p hne h0)
    · exact mul_le_mul_of_nonneg_left hpq (by linarith)
    · exact pIndex_le values q hne hq0 h1
  · rw [estimate_eq_interpAt]
    calc values.getD 0 0 ≤ values.getD (⌊pIndex values p⌋).toNat 0 := by
          apply getD_mono values hs _ _ (Nat.zero_le _)
          exact floor_toNat_lt values p hne h0 hp1
      _ ≤ interpAt values (pIndex values p) :=
          interpAt_lower values hs _ (pIndex_nonneg values p hne h0)
            (pIndex_le values p hne h0 hp1)
  · rw [estimate_eq_interpAt]
    calc interpAt values (pIndex values q)
        ≤ values.getD (⌈pIndex values q⌉).toNat 0 :=
          interpAt_upper values hs _ (pIndex_nonneg values q hne hq0)
            (pIndex_le values q hne hq0 h1)
      _ ≤ values.getD (values.length - 1) 0 := by
          apply getD_mono values hs
          · have := ceil_pIndex_le values q hne hq0 h1
            omega
          · omega

theorem percentile_monotone_witness :
    ∃ a b, percentile [10, 20, 30, 40] (1/4 : ℚ) = some a ∧
      percentile [10, 20, 30, 40] (3/4 : ℚ) = some b ∧
      a ≤ b ∧ ([10, 20, 30, 40] : List ℚ).getD 0 0 ≤ a ∧
      b ≤ ([10, 20, 30, 40] : List ℚ).getD (([10, 20, 30, 40] : List ℚ).length - 1) 0 :=
  percentile_monotone [10, 20, 30, 40] (1/4) (3/4) (List.cons_ne_nil _ _)
    (by decide) (by norm_num) (by norm_num) (by norm_num)

/-- One Latency Sample: the three per-invocation durations recorded by
the driver's `session.bench` (overall, network, wait). -/
structure Latency where
  overall : ℚ
  network : ℚ
  wait : ℚ
deriving DecidableEq

/-- The three fixed-size output regions owned by one Worker
(`self.overall`, `self.network`, `self.wait` in bench.py). -/
structure WorkerState where
  overall : List ℚ
  network : List ℚ
  wait : List ℚ
deriving DecidableEq

/-- The regions as allocated by `run_all`: `Array("d", run_count)` is a
shared array of `run_count` doubles, initialized to zero. -/
def initRegions (R : ℕ) : WorkerState :=
  ⟨List.replicate R 0, List.replicate R 0, List.replicate R 0⟩

/-- The first loop of `GAP.run` (bench.py lines 159-160): invoke the
operation for iterations `i, i+1, ...` (`k` of them).  The driver session
accumulates one Latency Sample per successful call in `session.bench`;
an invocation that raises propagates immediately and no further
iterations execute.  `op j` is the outcome of invocation `j`. -/
def benchRun (op : ℕ → Except String Latency) : ℕ → ℕ → Except String (List Latency)
  | _, 0 => .ok []
  | i, k + 1 =>
    match op i with
    | .error e => .error e
    | .ok l =>
      match benchRun op (i + 1) k with
      | .error e => .error e
      | .ok rest => .ok (l :: rest)

/-- Sequential indexed assignment into a fixed-size region:
`for i, v in enumerate(vs): l[i] = v`, one component of `writeFrom`. -/
def setFrom : List ℚ → ℕ → List ℚ → List ℚ
  | [], _, l => l
  | v :: rest, i, l => setFrom rest (i + 1) (l.set i v)

/-- The second loop of `GAP.run` (bench.py lines 162-165):
`for i, latency in enumerate(bench)` writes the three components of each
sample into slot `i` of the corresponding region. -/
def writeFrom : List Latency → ℕ → WorkerState → WorkerState
  | [], _, st => st
  | l :: rest, i, st =>
    writeFrom rest (i + 1)
      ⟨st.overall.set i l.overall, st.network.set i l.network, st.wait.set i l.wait⟩

namespace GAP

/-- `GAP.run` (bench.py lines 154-165): execute the statement `run_count`
times, then copy the accumulated `session.bench` samples into the output
regions.  The copy loop runs only if every invocation succeeded; an error
in the invocation loop propagates and leaves the regions (`st`) as they
were. -/
def run (R : ℕ) (op : ℕ → Except String Latency) (st : WorkerState) :
    Except String Unit × WorkerState :=
  match benchRun op 0 R with
  | .error e => (.error e, st)
  | .ok bench => (.ok (), writeFrom bench 0 st)

end GAP

lemma writeFrom_components : ∀ (bench : List Latency) (i : ℕ) (st : WorkerState),
    writeFrom bench i st =
      ⟨setFrom (bench.map Latency.overall) i st.overall,
       setFrom (bench.map Latency.network) i st.network,
       setFrom (bench.map Latency.wait) i st.wait⟩
  | [], _, _ => rfl
  | l :: rest, i, st => writeFrom_components rest (i + 1) _

lemma setFrom_length : ∀ (vs : List ℚ) (i : ℕ) (l : List ℚ),
    (setFrom vs i l).length = l.length
  | [], _, _ => rfl
  | v :: rest, i, l => by
    rw [setFrom, setFrom_length rest (i + 1) (l.set i v), List.length_set]

lemma take_set_succ : ∀ (l : List ℚ) (i : ℕ) (v : ℚ), i < l.length →
    (l.set i v).take (i + 1) = l.take i ++ [v]
  | [], i, v, h => absurd h (by simp)
  | x :: xs, 0, v, _ => rfl
  | x :: xs, i + 1, v, h => by
    have ih := take_set_succ xs i v (by simpa using h)
    show x :: (xs.set i v).take (i + 1) = x :: (xs.take i ++ [v])
    rw [ih]

lemma setFrom_full : ∀ (vs : List ℚ) (i : ℕ) (l : List ℚ), i + vs.length ≤ l.length →
    setFrom vs i l = l.take i ++ vs ++ l.drop (i + vs.length)
  | [], i, l, _ => by simp [setFrom, List.take_append_drop]
  | v :: rest, i, l, h => by
    rw [setFrom]
    have hlen : i < l.length := by
      have := h; simp [List.length_cons] at this; omega
    rw [setFrom_full rest (i + 1) (l.set i v) (by rw [List.length_set]; simp at h ⊢; omega)]
    rw [take_set_succ l i v hlen, List.drop_set_of_lt v l (by omega)]
    simp only [List.append_assoc, List.cons_append, List.nil_append, List.singleton_append]
    have : i + 1 + rest.length = i + (v :: rest).length := by simp; omega
    rw [this]

lemma setFrom_eq_of_length (vs l : List ℚ) (h : vs.length = l.length) :
    setFrom vs 0 l = vs := by
  rw [setFrom_full vs 0 l (by omega)]
  rw [List.take_zero, List.nil_append, Nat.zero_add, h, List.drop_length, List.append_nil]

lemma benchRun_success (op : ℕ → Except String Latency) (samples : ℕ → Latency) :
    ∀ (k i : ℕ), (∀ j, j < k → op (i + j) = .ok (samples (i + j))) →
    benchRun op i k = .ok ((List.range k).map (fun j => samples (i + j)))
  | 0, i, _ => rfl
  | k + 1, i, h => by
    have h0 : op i = .ok (samples i) := by
      have := h 0 (Nat.succ_pos k); simpa using this
    have hrec := benchRun_success op samples k (i + 1) (fun j hj => by
      have h2 := h (j + 1) (by omega)
      rw [show i + 1 + j = i + (j + 1) from by omega]
      exact h2)
    rw [benchRun, h0, hrec, List.range_succ_eq_map, List.map_cons, List.map_map]
    have hcomp : ((fun j => samples (i + j)) ∘ Nat.succ) = fun j => samples (i + 1 + j) := by
      funext j
      simp only [Function.comp_apply]
      rw [show i + Nat.succ j = i + 1 + j from by omega]
    rw [hcomp]
    simp

lemma benchRun_error (op : ℕ → Except String Latency) (e : String) :
    ∀ (m k i : ℕ), m < k → op (i + m) = .error e →
      (∀ j, j < m → ∃ s, op (i + j) = .ok s) →
      benchRun op i k = .error e
  | 0, 0, i, hm, _, _ => absurd hm (by omega)
  | 0, k + 1, i, _, he, _ => by
    rw [benchRun]
    simpa using he ▸ rfl
  | m + 1, 0, i, hm, _, _ => absurd hm (by omega)
  | m + 1, k + 1, i, hm, he, hok => by
    rw [benchRun]
    obtain ⟨s, hs⟩ := hok 0 (Nat.succ_pos m)
    simp only [Nat.add_zero] at hs
    rw [hs]
    rw [benchRun_error op e m k (i + 1) (by omega)
      (by have := he; rw [show i + (m + 1) = i + 1 + m by omega] at this; exact this)
      (fun j hj => by
        obtain ⟨t, ht⟩ := hok (j + 1) (by omega)
        exact ⟨t, by rw [show i + 1 + j = i + (j + 1) by omega]; exact ht⟩)]

/-- The counterexample operation: invocation 0 succeeds with latencies
(1, 2, 3), every later invocation raises. -/
def exOpPartial : ℕ → Except String Latency := fun i =>
  if i = 0 then .ok ⟨1, 2, 3⟩ else .error "boom"

/-- An always-succeeding operation with latencies (5, 6, 7). -/
def exOpOk : ℕ → Except String Latency := fun _ => .ok ⟨5, 6, 7⟩

/-- C3 counterexample: run a Worker with `run_count = 2` where invocation
0 completes (overall latency 1) and invocation 1 raises.  The claim
predicts the leading slot holds the recorded latency 1 with only the
trailing slot left at zero; the code leaves ALL slots at zero, because
samples are copied into the regions only after every invocation has
finished (the copy loop at bench.py lines 162-165 is never reached). -/
theorem worker_partial_failure_cex :
    (GAP.run 2 exOpPartial (initRegions 2)).1 = .error "boom" ∧
    (GAP.run 2 exOpPartial (initRegions 2)).2.overall = [0, 0] ∧
    ¬ ((GAP.run 2 exOpPartial (initRegions 2)).2.overall.getD 0 0 = 1) := by
  refine ⟨rfl, rfl, ?_⟩
  have hval : (GAP.run 2 exOpPartial (initRegions 2)).2.overall.getD 0 0 = 0 := rfl
  rw [hval]
  norm_num

/-- C3 (amended): when all `run_count` invocations succeed, every slot of
each region is populated with the corresponding per-invocation latency;
when an invocation raises mid-run the error propagates, no further
iterations execute, and ALL slots (not only the trailing ones) are left
at their initial zero value, since the recording loop only runs after
every invocation has completed. -/
theorem worker_run_behavior (R k : ℕ) (op : ℕ → Except String Latency)
    (samples : ℕ → Latency) (e : String) :
    ((∀ i, i < R → op i = .ok (samples i)) →
      GAP.run R op (initRegions R) =
        (.ok (), ⟨(List.range R).map (fun i => (samples i).overall),
                  (List.range R).map (fun i => (samples i).network),
                  (List.range R).map (fun i => (samples i).wait)⟩)) ∧
    (k < R → (∀ j, j < k → ∃ s, op j = .ok s) → op k = .error e →
      GAP.run R op (initRegions R) = (.error e, initRegions R)) := by
  constructor
  · intro hall
    have hb : benchRun op 0 R = .ok ((List.range R).map (fun j => samples j)) := by
      rw [benchRun_success op samples R 0 (fun j hj => by simpa using hall j hj)]
      simp
    have key : ∀ (f : Latency → ℚ),
        setFrom (((List.range R).map (fun j => samples j)).map f) 0
            (List.replicate R (0 : ℚ)) =
          (List.range R).map (fun j => f (samples j)) := by
      intro f
      rw [List.map_map]
      exact setFrom_eq_of_length _ _ (by simp)
    have hw : writeFrom ((List.range R).map (fun j => samples j)) 0 (initRegions R) =
        ⟨(List.range R).map (fun i => (samples i).overall),
         (List.range R).map (fun i => (samples i).network),
         (List.range R).map (fun i => (samples i).wait)⟩ := by
      rw [writeFrom_components]
      simp only [initRegions]
      rw [key Latency.overall, key Latency.network, key Latency.wait]
    unfold GAP.run
    rw [hb]
    show (Except.ok (), writeFrom ((List.range R).map (fun j => samples j)) 0 (initRegions R)) = _
    rw [hw]
  · intro hk hok he
    unfold GAP.run
    rw [benchRun_error op e k R 0 hk (by simpa using he) (fun j hj => by simpa using hok j hj)]

theorem worker_run_behavior_witness :
    GAP.run 1 exOpOk (initRegions 1) = (.ok (), ⟨[5], [6], [7]⟩) ∧
    GAP.run 2 exOpPartial (initRegions 2) = (.error "boom", initRegions 2) := by
  constructor
  · have h := (worker_run_behavior 1 0 exOpOk (fun _ => ⟨5, 6, 7⟩) "x").1
      (fun i _ => rfl)
    simpa using h
  · exact (worker_run_behavior 2 1 exOpPartial (fun _ => ⟨5, 6, 7⟩) "boom").2
      (by norm_num)
      (fun j hj => ⟨⟨1, 2, 3⟩, by
        have hj0 : j = 0 := by omega
        subst hj0; rfl⟩)
      rfl

/-- Python's `sorted(...)`: ascending stable sort. -/
def sortAsc (l : List ℚ) : List ℚ := l.mergeSort (fun a b => decide (a ≤ b))

/-- The three aggregated, sorted latency dimensions handed to `print_bench`. -/
structure AggregateSamples where
  overall : List ℚ
  network : List ℚ
  wait : List ℚ

/-- The final region contents of the `process_count` Workers spawned by
`run_all`: worker `i` runs the statement `run_count` times against its
own session (outcomes `ops i`) into its own zero-initialized regions.
`Process.join()` does not re-raise a child's exception, so aggregation
proceeds regardless of worker failure. -/
def workerRegions (P R : ℕ) (ops : ℕ → ℕ → Except String Latency) : List WorkerState :=
  (List.range P).map (fun i => (GAP.run R (ops i) (initRegions R)).2)

namespace GAP

/-- `GAP.run_all` (bench.py lines 115-141): allocate `process_count`
regions of `run_count` zeros per dimension, start the Workers, join them
all, then `sorted(chain(*overall))` etc.: flatten each dimension across
all Workers' regions and ascending-sort it before it is passed to
`print_bench` (which feeds it to `percentile`). -/
def run_all (P R : ℕ) (ops : ℕ → ℕ → Except String Latency) : AggregateSamples :=
  ⟨sortAsc ((workerRegions P R ops).map WorkerState.overall).flatten,
   sortAsc ((workerRegions P R ops).map WorkerState.network).flatten,
   sortAsc ((workerRegions P R ops).map WorkerState.wait).flatten⟩

end GAP

lemma run_regions_length (R : ℕ) (op : ℕ → Except String Latency) :
    (GAP.run R op (initRegions R)).2.overall.length = R ∧
    (GAP.run R op (initRegions R)).2.network.length = R ∧
    (GAP.run R op (initRegions R)).2.wait.length = R := by
  unfold GAP.run
  rcases h : benchRun op 0 R with e | bench <;>
    simp [writeFrom_components, setFrom_length, initRegions]

lemma flatten_const_length (R : ℕ) : ∀ (ws : List (List ℚ)),
    (∀ w ∈ ws, w.length = R) → ws.flatten.length = ws.length * R
  | [], _ => by simp
  | w :: rest, h => by
    have hw : w.length = R := h w (List.mem_cons_self w rest)
    have hrest := flatten_const_length R rest (fun x hx => h x (List.mem_cons_of_mem w hx))
    simp only [List.flatten_cons, List.length_append, List.length_cons, hw, hrest]
    ring

lemma sortAsc_spec (l : List ℚ) :
    List.Sorted (fun a b => a ≤ b) (sortAsc l) ∧ (sortAsc l).Perm l ∧
      (sortAsc l).length = l.length :=
  ⟨List.sorted_mergeSort' l, List.mergeSort_perm l _, List.length_mergeSort l⟩

lemma dimension_length (P R : ℕ) (ops : ℕ → ℕ → Except String Latency)
    (f : WorkerState → List ℚ)
    (hf : ∀ op, (f (GAP.run R op (initRegions R)).2).length = R) :
    ((workerRegions P R ops).map f).flatten.length = P * R := by
  rw [flatten_const_length R]
  · simp [workerRegions]
  · intro w hw
    obtain ⟨st, hst, rfl⟩ := List.mem_map.mp hw
    obtain ⟨i, _, rfl⟩ := List.mem_map.mp hst
    exact hf (ops i)

/-- C2: each of the three latency dimensions aggregated by `run_all` for
`process_count = P`, `run_count = R` holds exactly `P * R` samples, is
ascending-sorted, and is precisely the flattening of all Workers'
regions (as a permutation put into sorted order) — this is what is
passed on to the percentile computation. -/
theorem run_all_aggregation (P R : ℕ) (ops : ℕ → ℕ → Except String Latency) :
    (GAP.run_all P R ops).overall.length = P * R ∧
    (GAP.run_all P R ops).network.length = P * R ∧
    (GAP.run_all P R ops).wait.length = P * R ∧
    List.Sorted (fun a b => a ≤ b) (GAP.run_all P R ops).overall ∧
    List.Sorted (fun a b => a ≤ b) (GAP.run_all P R ops).network ∧
    List.Sorted (fun a b => a ≤ b) (GAP.run_all P R ops).wait ∧
    (GAP.run_all P R ops).overall.Perm
      ((workerRegions P R ops).map WorkerState.overall).flatten ∧
    (GAP.run_all P R ops).network.Perm
      ((workerRegions P R ops).map WorkerState.network).flatten ∧
    (GAP.run_all P R ops).wait.Perm
      ((workerRegions P R ops).map WorkerState.wait).flatten := by
  refine ⟨?_, ?_, ?_, (sortAsc_spec _).1, (sortAsc_spec _).1, (sortAsc_spec _).1,
    (sortAsc_spec _).2.1, (sortAsc_spec _).2.1, (sortAsc_spec _).2.1⟩
  · rw [show (GAP.run_all P R ops).overall =
      sortAsc ((workerRegions P R ops).map WorkerState.overall).flatten from rfl,
      (sortAsc_spec _).2.2]
    exact dimension_length P R ops WorkerState.overall
      (fun op => (run_regions_length R op).1)
  · rw [show (GAP.run_all P R ops).network =
      sortAsc ((workerRegions P R ops).map WorkerState.network).flatten from rfl,
      (sortAsc_spec _).2.2]
    exact dimension_length P R ops WorkerState.network
      (fun op => (run_regions_length R op).2.1)
  · rw [show (GAP.run_all P R ops).wait =
      sortAsc ((workerRegions P R ops).map WorkerState.wait).flatten from rfl,
      (sortAsc_spec _).2.2]
    exact dimension_length P R ops WorkerState.wait
      (fun op => (run_regions_length R op).2.2)

/-- Python `arg.startswith("-")`: tests the first character. -/
def startsWithDash (s : String) : Bool :=
  match s.data with
  | [] => false
  | c :: _ => c == Char.ofNat 45

/-- Accumulate decimal digits (ASCII 48-57); any other character means
the string is not a plain decimal numeral. -/
def digitsToNat : List Char → ℕ → Option ℕ
  | [], acc => some acc
  | c :: cs, acc =>
    if Char.ofNat 48 ≤ c ∧ c ≤ Char.ofNat 57 then
      digitsToNat cs (acc * 10 + (c.toNat - 48))
    else none

/-- Python `int(s)` on a CLI string: optional sign (ASCII 45 `-` or
43 `+`) followed by at least one decimal digit; malformed input raises
ValueError, modelled as `none`. -/
def pyToInt (s : String) : Option ℤ :=
  match s.data with
  | [] => none
  | c :: rest =>
    if c == Char.ofNat 45 then
      match rest with
      | [] => none
      | _ => (digitsToNat rest 0).map (fun n => -(n : ℤ))
    else if c == Char.ofNat 43 then
      match rest with
      | [] => none
      | _ => (digitsToNat rest 0).map (fun n => (n : ℤ))
    else (digitsToNat (c :: rest) 0).map (fun n => (n : ℤ))

/-- Python `s.split(",")` over the character list: maximal runs between
comma (ASCII 44) separators, keeping empty pieces. -/
def splitCommas : List Char → List Char → List String
  | [], acc => [String.mk acc.reverse]
  | c :: cs, acc =>
    if c == Char.ofNat 44 then String.mk acc.reverse :: splitCommas cs []
    else splitCommas cs (c :: acc)

/-- `list(map(int, s.split(",")))` from bench.py line 199; a ValueError
from any element is `none`. -/
def parseParallels (s : String) : Option (List ℤ) :=
  (splitCommas s.data []).mapM pyToInt

/-- Effective default `run_count` set at bench.py line 187. -/
def defaultRunCount : ℤ := 10000

/-- Default parallelism sweep (bench.py line 189):
`list(2 ** n for n in range(int(ceil(log(16, 2)) + 1)))`.  `log(16, 2)`
is exactly 4 (16 is a power of two, so no floating-point error arises);
`Nat.clog 2 16` is the exact integer ceiling logarithm. -/
def defaultParallels : List ℤ :=
  (List.range (Nat.clog 2 16 + 1)).map (fun n => (2 : ℤ) ^ n)

/-- The run count documented in the USAGE text ("default 2500",
bench.py line 52). -/
def usageDocumentedRunCount : ℤ := 2500

/-- The USAGE text (bench.py lines 43-60) with the script name
substituted, as printed by `help_`. -/
def USAGE (script : String) : String :=
  "Usage: " ++ script ++ " [«options»] «statement» [ «statement» ... ]\n\n" ++
  "Test performance of one or more Cypher statements against a\n" ++
  "Neo4j server.\n\n" ++
  "Options:\n" ++
  "  -? --help              display this help text\n" ++
  "  -x --times COUNT       number of times to execute each statement\n" ++
  "                         (default 2500)\n" ++
  "  -p --parallels VALUES  comma separated list of parallel values\n" ++
  "                         (default: 1,2,4,8,16)\n\n" ++
  "Environment:\n" ++
  "  NEO4J_URI - base URI of Neo4j database, e.g. neo4j://localhost\n\n" ++
  "Report bugs to nigel@neotechnology.com\n"

/-- ASCII 39, the single-quote character used by Python `repr`. -/
def squote : String := String.singleton (Char.ofNat 39)

/-- Python `repr` of a CLI flag string (no embedded quotes or escapes):
the string wrapped in single quotes. -/
def pyRepr (s : String) : String := squote ++ s ++ squote

/-- The message printed at bench.py line 201: `"Unknown option %r" % arg`. -/
def unknownOptionMsg (flag : String) : String :=
  "Unknown option " ++ pyRepr flag

/-- CPython prints a traceback to stderr and terminates the process with
exit status 1 when an exception (here the IndexError from `args.pop(0)`
on an empty list, or a ValueError from `int`) escapes `main()`. -/
def tracebackMsg : String := "Traceback (most recent call last)"

/-- Result of the argument-parsing `while args:` loop
(bench.py lines 190-204). -/
inductive ParseResult where
  | help
  | unknownOpt (flag : String)
  | exn
  | config (runCount : ℤ) (statements : List String) (parallels : List ℤ)
deriving DecidableEq

/-- The argument loop of `main` (bench.py lines 190-204), carrying the
mutable `run_count`, `statements`, `parallels`.  `-h`/`--help` exits via
`help_`; `-x`/`--times` and `-p`/`--parallels` consume the next argument
(`args.pop(0)` raises IndexError if there is none; `int` raises
ValueError on malformed input — both escape `main`); any other argument
starting with `-` hits the `Unknown option` branch; a non-flag argument
is appended to `statements`. -/
def parseArgs : List String → ℤ → List String → List ℤ → ParseResult
  | [], rc, stmts, ps => .config rc stmts ps
  | arg :: rest, rc, stmts, ps =>
    if startsWithDash arg then
      if arg = "-h" ∨ arg = "--help" then .help
      else if arg = "-x" ∨ arg = "--times" then
        match rest with
        | [] => .exn
        | v :: rest2 =>
          match pyToInt v with
          | none => .exn
          | some n => parseArgs rest2 n stmts ps
      else if arg = "-p" ∨ arg = "--parallels" then
        match rest with
        | [] => .exn
        | v :: rest2 =>
          match parseParallels v with
          | none => .exn
          | some l => parseArgs rest2 rc stmts l
      else .unknownOpt arg
    else parseArgs rest rc (stmts ++ [arg]) ps

/-- What an execution of `main` amounts to: an early exit with an exit
code and a message, the default-statement path (which consults the
external database to build its statement list), or a sequence of
`GAP.run_all(process_count, run_count, statement)` invocations, recorded
as `(statement, process_count, run_count)` triples in call order. -/
inductive MainOutcome where
  | exit (code : ℕ) (message : String)
  | runDefaults (runCount : ℤ) (parallels : List ℤ)
  | runs (invocations : List (String × ℤ × ℤ))
deriving DecidableEq

/-- The inner `for process_count in parallels:` loop at
bench.py lines 216-217 for one statement. -/
def driverStatementRuns (s : String) (rc : ℤ) : List ℤ → List (String × ℤ × ℤ)
  | [] => []
  | p :: rest => (s, p, rc) :: driverStatementRuns s rc rest

/-- The nested driver loops at bench.py lines 215-217:
`for statement in statements: for process_count in parallels: ...`. -/
def driverLoop (rc : ℤ) : List String → List ℤ → List (String × ℤ × ℤ)
  | [], _ => []
  | s :: rest, ps => driverStatementRuns s rc ps ++ driverLoop rc rest ps

/-- `main` (bench.py lines 172-217) after the fixed banner output:
parse the arguments with the defaults of lines 187-189, then either exit
(help, unknown option, or uncaught exception), fall back to the built-in
default statements (empty statement list), or run the nested driver
loops.  `script` is the basename of `sys.argv[0]`, `args` is
`sys.argv[1:]`. -/
def mainModel (script : String) (args : List String) : MainOutcome :=
  match parseArgs args defaultRunCount [] defaultParallels with
  | .help => .exit 0 (USAGE script)
  | .unknownOpt f => .exit 1 (unknownOptionMsg f)
  | .exn => .exit 1 tracebackMsg
  | .config rc [] ps => .runDefaults rc ps
  | .config rc (s :: rest) ps => .runs (driverLoop rc (s :: rest) ps)

/-- Whether an outcome goes on to spawn Workers and run benchmarks. -/
def executesBenchmark : MainOutcome → Bool
  | .exit _ _ => false
  | _ => true

lemma defaultParallels_eq : defaultParallels = [1, 2, 4, 8, 16] := by
  unfold defaultParallels
  rw [show Nat.clog 2 16 = 4 from by
    rw [show (16 : ℕ) = 2 ^ 4 from by norm_num, Nat.clog_pow 2 4 (by norm_num)]]
  rfl

lemma parse_config_invariants :
    ∀ (n : ℕ) (args : List String), args.length ≤ n →
    ∀ (rc0 : ℤ) (stmts0 : List String) (ps0 : List ℤ)
      (rc : ℤ) (stmts : List String) (ps : List ℤ),
      parseArgs args rc0 stmts0 ps0 = ParseResult.config rc stmts ps →
      (("-x" ∉ args ∧ "--times" ∉ args) → rc = rc0) ∧
      (("-p" ∉ args ∧ "--parallels" ∉ args) → ps = ps0) := by
  intro n
  induction n with
  | zero =>
    intro args hlen rc0 stmts0 ps0 rc stmts ps hp
    have hargs : args = [] := List.length_eq_zero.mp (Nat.le_zero.mp hlen)
    subst hargs
    simp only [parseArgs, ParseResult.config.injEq] at hp
    exact ⟨fun _ => hp.1.symm, fun _ => hp.2.2.symm⟩
  | succ n ih =>
    intro args hlen rc0 stmts0 ps0 rc stmts ps hp
    match args, hlen, hp with
    | [], _, hp =>
      simp only [parseArgs, ParseResult.config.injEq] at hp
      exact ⟨fun _ => hp.1.symm, fun _ => hp.2.2.symm⟩
    | [arg], hlen, hp =>
      rw [parseArgs.eq_2] at hp
      by_cases hd : startsWithDash arg
      · rw [if_pos hd] at hp
        by_cases hh : arg = "-h" ∨ arg = "--help"
        · rw [if_pos hh] at hp; simp at hp
        · rw [if_neg hh] at hp
          by_cases hx : arg = "-x" ∨ arg = "--times"
          · rw [if_pos hx] at hp; simp at hp
          · rw [if_neg hx] at hp
            by_cases hpp : arg = "-p" ∨ arg = "--parallels"
            · rw [if_pos hpp] at hp; simp at hp
            · rw [if_neg hpp] at hp; simp at hp
      · rw [if_neg hd] at hp
        simp only [parseArgs, ParseResult.config.injEq] at hp
        exact ⟨fun _ => hp.1.symm, fun _ => hp.2.2.symm⟩
    | arg :: v :: rest2, hlen, hp =>
      rw [parseArgs.eq_3] at hp
      by_cases hd : startsWithDash arg
      · rw [if_pos hd] at hp
        by_cases hh : arg = "-h" ∨ arg = "--help"
        · rw [if_pos hh] at hp; simp at hp
        · rw [if_neg hh] at hp
          by_cases hx : arg = "-x" ∨ arg = "--times"
          · rw [if_pos hx] at hp
            cases hv : pyToInt v with
            | none => rw [hv] at hp; simp at hp
            | some nval =>
              rw [hv] at hp
              have hrec := ih rest2 (by simp at hlen ⊢; omega)
                nval stmts0 ps0 rc stmts ps hp
              constructor
              · rintro ⟨hx1, ht1⟩
                exfalso
                rcases hx with h | h
                · exact hx1 (h ▸ List.mem_cons_self arg (v :: rest2))
                · exact ht1 (h ▸ List.mem_cons_self arg (v :: rest2))
              · rintro ⟨hp1, hpar1⟩
                exact hrec.2 ⟨fun hm => hp1 (List.mem_cons_of_mem _ (List.mem_cons_of_mem _ hm)),
                  fun hm => hpar1 (List.mem_cons_of_mem _ (List.mem_cons_of_mem _ hm))⟩
          · rw [if_neg hx] at hp
            by_cases hpp : arg = "-p" ∨ arg = "--parallels"
            · rw [if_pos hpp] at hp
              cases hv : parseParallels v with
              | none => rw [hv] at hp; simp at hp
              | some l =>
                rw [hv] at hp
                have hrec := ih rest2 (by simp at hlen ⊢; omega)
                  rc0 stmts0 l rc stmts ps hp
                constructor
                · rintro ⟨hx1, ht1⟩
                  exact hrec.1 ⟨fun hm => hx1 (List.mem_cons_of_mem _ (List.mem_cons_of_mem _ hm)),
                    fun hm => ht1 (List.mem_cons_of_mem _ (List.mem_cons_of_mem _ hm))⟩
                · rintro ⟨hp1, hpar1⟩
                  exfalso
                  rcases hpp with h | h
                  · exact hp1 (h ▸ List.mem_cons_self arg (v :: rest2))
                  · exact hpar1 (h ▸ List.mem_cons_self arg (v :: rest2))
            · rw [if_neg hpp] at hp; simp at hp
      · rw [if_neg hd] at hp
        have hrec := ih (v :: rest2) (by simp at hlen ⊢; omega)
          rc0 (stmts0 ++ [arg]) ps0 rc stmts ps hp
        exact ⟨fun ⟨h1, h2⟩ => hrec.1 ⟨fun hm => h1 (List.mem_cons_of_mem _ hm),
            fun hm => h2 (List.mem_cons_of_mem _ hm)⟩,
          fun ⟨h1, h2⟩ => hrec.2 ⟨fun hm => h1 (List.mem_cons_of_mem _ hm),
            fun hm => h2 (List.mem_cons_of_mem _ hm)⟩⟩

/-- C6: with no `-x`/`--times` flag, the `run_count` reaching the driver
is 10000, not the 2500 documented in the usage text; with no
`-p`/`--parallels` flag, the parallelism sweep is exactly
`[1, 2, 4, 8, 16]`. -/
theorem main_defaults (args : List String) (rc : ℤ) (stmts : List String) (ps : List ℤ) :
    (("-x" ∉ args ∧ "--times" ∉ args) →
      parseArgs args defaultRunCount [] defaultParallels = ParseResult.config rc stmts ps →
      rc = 10000) ∧
    (("-p" ∉ args ∧ "--parallels" ∉ args) →
      parseArgs args defaultRunCount [] defaultParallels = ParseResult.config rc stmts ps →
      ps = [1, 2, 4, 8, 16]) ∧
    defaultRunCount ≠ usageDocumentedRunCount := by
  refine ⟨?_, ?_, by norm_num [defaultRunCount, usageDocumentedRunCount]⟩
  · intro hmem hp
    exact (parse_config_invariants args.length args le_rfl
      defaultRunCount [] defaultParallels rc stmts ps hp).1 hmem
  · intro hmem hp
    have h := (parse_config_invariants args.length args le_rfl
      defaultRunCount [] defaultParallels rc stmts ps hp).2 hmem
    rw [h, defaultParallels_eq]

theorem main_defaults_witness :
    defaultRunCount = 10000 ∧ defaultParallels = [1, 2, 4, 8, 16] := by
  have h := main_defaults ["RETURN 1"] defaultRunCount ["RETURN 1"] defaultParallels
  exact ⟨h.1 ⟨by decide, by decide⟩ rfl, h.2.1 ⟨by decide, by decide⟩ rfl⟩

/-- C7 (code-bug evidence): `-h` and `--help` print the usage text and
exit with status 0 without running a benchmark, but `-?` — the flag the
USAGE text itself documents with "display this help text" — falls
through to the unknown-option branch and exits with status 1. -/
theorem help_flag_behavior :
    mainModel "bench.py" ["-h"] = MainOutcome.exit 0 (USAGE "bench.py") ∧
    mainModel "bench.py" ["--help"] = MainOutcome.exit 0 (USAGE "bench.py") ∧
    executesBenchmark (mainModel "bench.py" ["-h"]) = false ∧
    executesBenchmark (mainModel "bench.py" ["--help"]) = false ∧
    mainModel "bench.py" ["-?"] = MainOutcome.exit 1 (unknownOptionMsg "-?") ∧
    mainModel "bench.py" ["-?"] ≠ MainOutcome.exit 0 (USAGE "bench.py") := by
  refine ⟨rfl, rfl, rfl, rfl, rfl, ?_⟩
  intro h
  rw [show mainModel "bench.py" ["-?"] = MainOutcome.exit 1 (unknownOptionMsg "-?") from rfl] at h
  injection h with h1 h2
  exact absurd h1 (by norm_num)

lemma missing_value_exn : ∀ (stmts : List String) (flag : String) (rc0 : ℤ)
    (stmts0 : List String) (ps0 : List ℤ),
    (∀ s ∈ stmts, startsWithDash s = false) →
    (flag = "-x" ∨ flag = "--times" ∨ flag = "-p" ∨ flag = "--parallels") →
    parseArgs (stmts ++ [flag]) rc0 stmts0 ps0 = ParseResult.exn
  | [], flag, rc0, stmts0, ps0, _, hf => by
    rcases hf with h | h | h | h <;> subst h <;> rfl
  | [s], flag, rc0, stmts0, ps0, hs, hf => by
    have hd : startsWithDash s = false := hs s (List.mem_cons_self _ _)
    show parseArgs (s :: [flag]) rc0 stmts0 ps0 = ParseResult.exn
    rw [parseArgs.eq_3, if_neg (by rw [hd]; exact Bool.false_ne_true)]
    exact missing_value_exn [] flag rc0 (stmts0 ++ [s]) ps0
      (fun t ht => absurd ht (List.not_mem_nil t)) hf
  | s :: r :: rest, flag, rc0, stmts0, ps0, hs, hf => by
    have hd : startsWithDash s = false := hs s (List.mem_cons_self _ _)
    show parseArgs (s :: r :: (rest ++ [flag])) rc0 stmts0 ps0 = ParseResult.exn
    rw [parseArgs.eq_3, if_neg (by rw [hd]; exact Bool.false_ne_true)]
    exact missing_value_exn (r :: rest) flag rc0 (stmts0 ++ [s]) ps0
      (fun t ht => hs t (List.mem_cons_of_mem _ ht)) hf

/-- C8: an unknown flag makes `main` print `Unknown option <flag>`
(the message contains the flag name) and exit with status 1; a
value-taking flag (`-x`/`--times`/`-p`/`--parallels`) given as the last
argument raises an uncaught IndexError, which CPython reports and turns
into exit status 1.  In every such case no benchmark — hence no
Worker — is started. -/
theorem argument_errors (script : String) (args : List String) (f flag : String)
    (stmts : List String) :
    (parseArgs args defaultRunCount [] defaultParallels = ParseResult.unknownOpt f →
      mainModel script args = MainOutcome.exit 1 (unknownOptionMsg f) ∧
      (∃ pre post, unknownOptionMsg f = pre ++ f ++ post) ∧
      executesBenchmark (mainModel script args) = false) ∧
    (parseArgs args defaultRunCount [] defaultParallels = ParseResult.exn →
      mainModel script args = MainOutcome.exit 1 tracebackMsg ∧
      executesBenchmark (mainModel script args) = false) ∧
    ((∀ s ∈ stmts, startsWithDash s = false) →
      (flag = "-x" ∨ flag = "--times" ∨ flag = "-p" ∨ flag = "--parallels") →
      parseArgs (stmts ++ [flag]) defaultRunCount [] defaultParallels = ParseResult.exn) := by
  refine ⟨?_, ?_, fun hs hf => missing_value_exn stmts flag _ _ _ hs hf⟩
  · intro hp
    have hm : mainModel script args = MainOutcome.exit 1 (unknownOptionMsg f) := by
      unfold mainModel; rw [hp]
    refine ⟨hm, ⟨"Unknown option " ++ squote, squote, ?_⟩, by rw [hm]; rfl⟩
    unfold unknownOptionMsg pyRepr
    simp [String.append_assoc]
  · intro hp
    have hm : mainModel script args = MainOutcome.exit 1 tracebackMsg := by
      unfold mainModel; rw [hp]
    exact ⟨hm, by rw [hm]; rfl⟩

theorem argument_errors_witness :
    mainModel "bench.py" ["--bogus"] = MainOutcome.exit 1 (unknownOptionMsg "--bogus") ∧
    (∃ pre post, unknownOptionMsg "--bogus" = pre ++ "--bogus" ++ post) ∧
    mainModel "bench.py" ["-x"] = MainOutcome.exit 1 tracebackMsg ∧
    parseArgs ["-x"] defaultRunCount [] defaultParallels = ParseResult.exn := by
  have h1 := argument_errors "bench.py" ["--bogus"] "--bogus" "-x" []
  have h2 := argument_errors "bench.py" ["-x"] "--bogus" "-x" []
  exact ⟨(h1.1 rfl).1, (h1.1 rfl).2.1, (h2.2.1 rfl).1,
    h2.2.2 (fun s hs => absurd hs (List.not_mem_nil s)) (Or.inl rfl)⟩

/-- C9 counterexample: with the configured parallelism list `[2, 1]`
(`-p 2,1`), the driver invokes `run_all` with parallelism 2 first and 1
second — the configured order, not ascending order. -/
theorem driver_order_cex :
    mainModel "bench.py" ["-p", "2,1", "s"] =
      MainOutcome.runs [("s", 2, 10000), ("s", 1, 10000)] ∧
    ¬ List.Sorted (fun a b => a ≤ b)
        (([("s", 2, 10000), ("s", 1, 10000)] : List (String × ℤ × ℤ)).map
          (fun x => x.2.1)) :=
  ⟨rfl, by decide⟩

lemma driverStatementRuns_eq (s : String) (rc : ℤ) : ∀ (ps : List ℤ),
    driverStatementRuns s rc ps = ps.map (fun p => (s, p, rc))
  | [] => rfl
  | p :: rest => by
    rw [driverStatementRuns, List.map_cons, driverStatementRuns_eq s rc rest]

lemma driverLoop_eq (rc : ℤ) : ∀ (stmts : List String) (ps : List ℤ),
    driverLoop rc stmts ps = stmts.flatMap (fun st => ps.map (fun p => (st, p, rc)))
  | [], _ => rfl
  | s :: rest, ps => by
    rw [driverLoop, driverLoop_eq rc rest ps, driverStatementRuns_eq]
    simp [List.flatMap]

/-- C9 (amended): the driver invokes `run_all` once per
(statement, parallelism) pair — statements in the outer loop,
parallelism values in the configured order (the default configuration
`[1, 2, 4, 8, 16]` is ascending). -/
theorem driver_invocations (stmts : List String) (ps : List ℤ) (rc : ℤ)
    (script : String) (args : List String) (s : String) (rest : List String) :
    driverLoop rc stmts ps = stmts.flatMap (fun st => ps.map (fun p => (st, p, rc))) ∧
    List.Sorted (fun a b => a < b) defaultParallels ∧
    (parseArgs args defaultRunCount [] defaultParallels =
        ParseResult.config rc (s :: rest) ps →
      mainModel script args = MainOutcome.runs (driverLoop rc (s :: rest) ps)) := by
  refine ⟨driverLoop_eq rc stmts ps, by rw [defaultParallels_eq]; decide, ?_⟩
  intro hp
  unfold mainModel
  rw [hp]

theorem driver_invocations_witness :
    driverLoop 10000 ["a", "b"] [1, 2] =
      [("a", 1, 10000), ("a", 2, 10000), ("b", 1, 10000), ("b", 2, 10000)] ∧
    mainModel "bench.py" ["s"] = MainOutcome.runs (driverLoop defaultRunCount ["s"] defaultParallels) := by
  constructor
  · rw [(driver_invocations ["a", "b"] [1, 2] 10000 "bench.py" ["s"] "s" []).1]
    rfl
  · exact (driver_invocations ["s"] defaultParallels defaultRunCount
      "bench.py" ["s"] "s" []).2.2 rfl

end Bench
